import Mathlib

/-!
Verification of talisman's detection-result collection and reporting layer
(`detector/helpers/detection_results.go`).

The embedding below translates the Go data model and operations into pure
Lean definitions.  Go strings are modelled as Lean `String`s whose `data`
field plays the role of the Go byte slice (the messages under study are
ASCII, where bytes and characters coincide).  Go methods that mutate the
receiver become functions returning the updated `DetectionResults`; Go code
that can dereference a nil pointer returns an `Option`, with `none`
standing for the runtime panic.
-/

namespace Talisman

/-- Modelled from the spec: the `severity` package is not part of the
sources under study; the spec describes `Severity` as an ordered enum
(Low < Medium < High) with a textual rendering. -/
inductive Severity where
  | low
  | medium
  | high
deriving DecidableEq, Repr

/-- Modelled from the spec: the textual rendering of a severity
(`Severity.String()` in the collaborator package). -/
def Severity.render : Severity → String
  | .low => "low"
  | .medium => "medium"
  | .high => "high"

/-- Go struct `Details` (detection_results.go lines 22-27): one finding,
holding its category, message, commit identifiers and severity. -/
structure Details where
  Category : String
  Message : String
  Commits : List String
  Severity : Severity
deriving DecidableEq, Repr

/-- Go struct `ResultsDetails` (lines 29-34): the per-file ledger of
failures, warnings and ignores. -/
structure ResultsDetails where
  Filename : String
  FailureList : List Details
  WarningList : List Details
  IgnoreList : List Details
deriving DecidableEq, Repr

/-- Go struct `FailureTypes` (lines 36-42): the run-wide counters. -/
structure FailureTypes where
  Filecontent : Nat
  Filesize : Nat
  Filename : Nat
  Warnings : Nat
  Ignores : Nat
deriving DecidableEq, Repr

/-- Go struct `ResultsSummary` (lines 44-46). -/
structure ResultsSummary where
  Types : FailureTypes
deriving DecidableEq, Repr

/-- Go struct `DetectionResults` (lines 52-56).  The `mode` field only
parameterizes the flavour of suggested ignore entries and is dropped from
the model; `Summary` and `Results` are carried as in the source. -/
structure DetectionResults where
  Summary : ResultsSummary
  Results : List ResultsDetails
deriving DecidableEq, Repr

/-- Go `NewDetectionResults` (lines 106-115): zero counters, no ledgers. -/
def NewDetectionResults : DetectionResults :=
  ⟨⟨⟨0, 0, 0, 0, 0⟩⟩, []⟩

/-- The matching test used by the inline dedup loops of `Fail` (line 127)
and `Warn` (line 153): equality on category and message via
`strings.Compare`. -/
def detMatch (category message : String) (d : Details) : Bool :=
  d.Category == category && d.Message == message

/-- The inner loop shared (textually duplicated) by Go `Fail` (lines
126-134) and `Warn` (lines 152-160): append `commits` to every existing
entry matching `(category, message)`; if none matched, append a fresh
`Details` with the supplied data at the end of the list. -/
def mergeFinding (l : List Details) (category message : String)
    (commits : List String) (sv : Severity) : List Details :=
  if l.any (detMatch category message) then
    l.map (fun d =>
      if detMatch category message d then { d with Commits := d.Commits ++ commits } else d)
  else
    l ++ [⟨category, message, commits, sv⟩]

/-- The inner loop of Go `Ignore` (lines 180-190): if no entry of the
ignore list already has `category`, append a fresh entry with empty
message and `Low` severity; otherwise leave the list unchanged. -/
def ignoreUpdate (l : List Details) (category : String) : List Details :=
  if l.any (fun d => d.Category == category) then l
  else l ++ [⟨category, "", [], Severity.low⟩]

/-- Go `updateResultsSummary` (lines 202-211): bump the typed counter for
the three reserved categories; any other category changes nothing. -/
def updateResultsSummary (s : ResultsSummary) (category : String) : ResultsSummary :=
  match category with
  | "filecontent" => ⟨{ s.Types with Filecontent := s.Types.Filecontent + 1 }⟩
  | "filename" => ⟨{ s.Types with Filename := s.Types.Filename + 1 }⟩
  | "filesize" => ⟨{ s.Types with Filesize := s.Types.Filesize + 1 }⟩
  | _ => s

/-- Go `Fail` (lines 120-144): for every ledger whose filename matches,
run the dedup/merge loop over its failure list; if no ledger matched,
append a fresh ledger holding only the new failure; finally update the
typed counters. -/
def DetectionResults.Fail (r : DetectionResults) (filePath category message : String)
    (commits : List String) (sv : Severity) : DetectionResults :=
  let present := r.Results.any (fun rd => rd.Filename == filePath)
  let updated := r.Results.map (fun rd =>
    if rd.Filename == filePath then
      { rd with FailureList := mergeFinding rd.FailureList category message commits sv }
    else rd)
  let results :=
    if present then updated
    else updated ++ [⟨filePath, [⟨category, message, commits, sv⟩], [], []⟩]
  ⟨updateResultsSummary r.Summary category, results⟩

/-- Go `Warn` (lines 146-170): same shape as `Fail` over the warning list;
the warning counter is bumped unconditionally. -/
def DetectionResults.Warn (r : DetectionResults) (filePath category message : String)
    (commits : List String) (sv : Severity) : DetectionResults :=
  let present := r.Results.any (fun rd => rd.Filename == filePath)
  let updated := r.Results.map (fun rd =>
    if rd.Filename == filePath then
      { rd with WarningList := mergeFinding rd.WarningList category message commits sv }
    else rd)
  let results :=
    if present then updated
    else updated ++ [⟨filePath, [], [⟨category, message, commits, sv⟩], []⟩]
  ⟨⟨{ r.Summary.Types with Warnings := r.Summary.Types.Warnings + 1 }⟩, results⟩

/-- Go `Ignore` (lines 174-200): dedup on category alone within the ignore
list; the ignore counter is bumped unconditionally (it counts calls). -/
def DetectionResults.Ignore (r : DetectionResults) (filePath category : String) :
    DetectionResults :=
  let present := r.Results.any (fun rd => rd.Filename == filePath)
  let updated := r.Results.map (fun rd =>
    if rd.Filename == filePath then
      { rd with IgnoreList := ignoreUpdate rd.IgnoreList category }
    else rd)
  let results :=
    if present then updated
    else updated ++ [⟨filePath, [], [], [⟨category, "", [], Severity.low⟩]⟩]
  ⟨⟨{ r.Summary.Types with Ignores := r.Summary.Types.Ignores + 1 }⟩, results⟩

/-- Go `getResultDetailsForFilePath` (lines 96-103): first ledger whose
filename matches, if any. -/
def DetectionResults.getResultDetailsForFilePath (r : DetectionResults)
    (fileName : String) : Option ResultsDetails :=
  r.Results.find? (fun rd => rd.Filename == fileName)

/-- Go `HasFailures` (lines 214-216). -/
def DetectionResults.HasFailures (r : DetectionResults) : Bool :=
  r.Summary.Types.Filesize > 0 || r.Summary.Types.Filename > 0 ||
    r.Summary.Types.Filecontent > 0

/-- Go `HasIgnores` (lines 219-221). -/
def DetectionResults.HasIgnores (r : DetectionResults) : Bool :=
  r.Summary.Types.Ignores > 0

/-- Go `HasWarnings` (lines 223-225). -/
def DetectionResults.HasWarnings (r : DetectionResults) : Bool :=
  r.Summary.Types.Warnings > 0

/-- Go `HasDetectionMessages` (lines 227-229). -/
def DetectionResults.HasDetectionMessages (r : DetectionResults) : Bool :=
  r.HasWarnings || r.HasFailures || r.HasIgnores

/-- Go `Successful` (lines 232-234). -/
def DetectionResults.Successful (r : DetectionResults) : Bool :=
  !r.HasFailures

/-- Go `GetFailures` (lines 237-243): empty list when the path has no
ledger, otherwise the ledger's failure list. -/
def DetectionResults.GetFailures (r : DetectionResults) (fileName : String) : List Details :=
  match r.getResultDetailsForFilePath fileName with
  | none => []
  | some rd => rd.FailureList

/-- The truncation applied before rendering (lines 369-371 and 383-385):
a message longer than 150 bytes becomes its first 75 bytes, a line break,
the bytes 75..147, then an ellipsis.  Bytes are modelled by the
characters of `String.data`. -/
def truncateForDisplay (message : String) : String :=
  if message.data.length > 150 then
    String.mk (message.data.take 75 ++ '\n' :: ((message.data.drop 75).take 72 ++ "...".data))
  else message

/-- Go `ReportFileFailures` (lines 364-376).  The Go method dereferences
`getResultDetailsForFilePath` without a nil check, so a path with no
ledger panics: that panic is modelled by `none`.  On success, the pair
holds the receiver state after the call (the method never writes through
the receiver: truncation is applied to the per-iteration copy `detail`)
and the table rows. -/
def DetectionResults.ReportFileFailures (r : DetectionResults) (filePath : String) :
    Option (DetectionResults × List (List String)) :=
  match r.getResultDetailsForFilePath filePath with
  | none => none
  | some rd =>
      some (r, rd.FailureList.map (fun detail =>
        [filePath, truncateForDisplay detail.Message, detail.Severity.render]))

/-- Go `ReportFileWarnings` (lines 378-390): same shape over the warning
list, with the same unguarded dereference. -/
def DetectionResults.ReportFileWarnings (r : DetectionResults) (filePath : String) :
    Option (DetectionResults × List (List String)) :=
  match r.getResultDetailsForFilePath filePath with
  | none => none
  | some rd =>
      some (r, rd.WarningList.map (fun detail =>
        [filePath, truncateForDisplay detail.Message, detail.Severity.render]))

/-- Go `prompt.PromptContext`, reduced to the one field the reported
behaviour depends on. -/
structure PromptContext where
  Interactive : Bool
deriving DecidableEq, Repr

/-- Modelled from the spec: the Ignore-Candidate Entry
`(filePath, checksum, extraContent)` built by the collaborator function
`talismanrc.BuildIgnoreConfig`, whose sources are not part of the code
under study. -/
structure IgnoreConfig where
  filePath : String
  checksum : String
  extraContent : List String
deriving DecidableEq, Repr

/-- Modelled from the spec: `utility.UniqueItems` (sources not under
study) deduplicates file paths by case-sensitive exact string equality,
keeping the first occurrence, order-preserving. -/
def uniqueItems (l : List String) : List String :=
  l.foldl (fun acc x => if x ∈ acc then acc else acc ++ [x]) []

/-- Go `suggestTalismanRC` (lines 303-324), restricted to the candidate
entries it builds: one per file path, carrying the collaborator-supplied
checksum for that single path and empty extra content.  Whether the
candidates are then printed or interactively confirmed does not change
the candidate list itself. -/
def suggestTalismanRC (hash : String → String) (filePaths : List String) :
    List IgnoreConfig :=
  filePaths.map (fun p => ⟨p, hash p, []⟩)

/-- The observable outcome of a reporting call: the string returned to
the caller, the table rows handed to the terminal table writer, whether
the banner/table was actually rendered to standard output, and the
candidate ignore entries produced by the suggestion workflow. -/
structure ReportOutcome where
  returned : String
  rows : List (List String)
  banner : Bool
  suggestions : List IgnoreConfig
deriving DecidableEq, Repr

/-- The review hint emitted by Go `ReportWarnings` (lines 267-268): the
yellow hint line followed by the extra blank line. -/
def reviewHint : String :=
  "\n\x1b[33mPlease review the above file(s) to make sure that no sensitive content is being pushed\x1b[0m\n\n"

/-- Go `ReportWarnings` (lines 245-271): collect one row per warning of
every ledger with a nonempty warning list (via `ReportFileWarnings`,
whose possible panic propagates as `none`); the banner, table and the
returned review hint are produced only when the warning counter is
nonzero, otherwise the returned string is empty. -/
def DetectionResults.ReportWarnings (r : DetectionResults) : Option ReportOutcome :=
  (r.Results.foldlM (fun acc rd =>
      if rd.WarningList.length > 0 then
        (r.ReportFileWarnings rd.Filename).map
          (fun x => (acc.1 ++ [rd.Filename], acc.2 ++ x.2))
      else
        some acc) (([] : List String), ([] : List (List String)))).bind
    (fun collected =>
      if r.Summary.Types.Warnings > 0 then
        some ⟨reviewHint, collected.2, true, []⟩
      else
        some ⟨"", collected.2, false, []⟩)

/-- Go `Report` (lines 274-301): collect rows and file paths from every
ledger with a nonempty failure or ignore list; when `HasFailures()` the
banner and table are printed and the suggestion workflow runs over the
deduplicated paths.  The local `result` variable is never assigned, so
the returned string is always empty.  `promptContext` only selects
between printing and interactively confirming the same candidates. -/
def DetectionResults.Report (r : DetectionResults) (hash : String → String)
    (_promptContext : PromptContext) : Option ReportOutcome :=
  (r.Results.foldlM (fun acc rd =>
      if rd.FailureList.length > 0 || rd.IgnoreList.length > 0 then
        (r.ReportFileFailures rd.Filename).map
          (fun x => (acc.1 ++ [rd.Filename], acc.2 ++ x.2))
      else
        some acc) (([] : List String), ([] : List (List String)))).bind
    (fun collected =>
      if r.HasFailures then
        some ⟨"", collected.2, true, suggestTalismanRC hash (uniqueItems collected.1)⟩
      else
        some ⟨"", collected.2, false, []⟩)

/-- One recorded accumulation call, for reasoning about whole call
sequences against the run state. -/
inductive Op where
  | fail (path category message : String) (commits : List String) (sv : Severity)
  | warn (path category message : String) (commits : List String) (sv : Severity)
  | ignore (path category : String)

/-- Dispatch one accumulation call to the corresponding operation. -/
def applyOp (r : DetectionResults) : Op → DetectionResults
  | .fail p c m cs sv => r.Fail p c m cs sv
  | .warn p c m cs sv => r.Warn p c m cs sv
  | .ignore p c => r.Ignore p c

/-- Run a sequence of accumulation calls from a given state. -/
def runOps (r : DetectionResults) (ops : List Op) : DetectionResults :=
  ops.foldl applyOp r

/-- One `Fail` call (its path, category, message, commits, severity). -/
structure FailCall where
  path : String
  category : String
  message : String
  commits : List String
  sv : Severity

/-- Run a sequence of `Fail` calls from a given state. -/
def runFails (r : DetectionResults) (calls : List FailCall) : DetectionResults :=
  calls.foldl (fun acc k => acc.Fail k.path k.category k.message k.commits k.sv) r

/-- Run a sequence of `Fail` calls that share one path, category and
message, each call supplying its own commits and severity. -/
def failCalls (r : DetectionResults) (p c m : String)
    (calls : List (List String × Severity)) : DetectionResults :=
  calls.foldl (fun acc k => acc.Fail p c m k.1 k.2) r

/-- Concatenation of a list of commit lists, in order. -/
def concatAll (ls : List (List String)) : List String :=
  ls.foldr (fun a b => a ++ b) []

/-- Well-formedness of a run state: ledger paths are pairwise distinct;
within each ledger no two failures and no two warnings share
`(category, message)`, no two ignores share a category, and every ignore
entry has an empty message and `Low` severity. -/
def Inv (r : DetectionResults) : Prop :=
  (r.Results.Pairwise fun a b => a.Filename ≠ b.Filename) ∧
  ∀ rd ∈ r.Results,
    (rd.FailureList.Pairwise fun a b => ¬(a.Category = b.Category ∧ a.Message = b.Message)) ∧
    (rd.WarningList.Pairwise fun a b => ¬(a.Category = b.Category ∧ a.Message = b.Message)) ∧
    (rd.IgnoreList.Pairwise fun a b => a.Category ≠ b.Category) ∧
    ∀ d ∈ rd.IgnoreList, d.Message = "" ∧ d.Severity = Severity.low

/-- A 200-character message, used to exercise truncation. -/
def longMsg : String :=
  String.mk (List.replicate 200 'a')

/-- A run holding one failure whose message has 200 characters. -/
def longMsgRun : DetectionResults :=
  NewDetectionResults.Fail "key.pem" "filecontent" longMsg [] Severity.low

/-- The table rows rendered for `longMsgRun`: 75 characters, a line
break, 72 more characters, then the ellipsis. -/
def longMsgRows : List (List String) :=
  [["key.pem",
    String.mk (List.replicate 75 'a' ++ '\n' :: (List.replicate 72 'a' ++ "...".data)),
    "low"]]

/-- A 200-character warning message. -/
def longWarnMsg : String :=
  String.mk (List.replicate 200 'b')

/-- A run holding one failure and one warning on the same file, both
with 200-character messages. -/
def longBothRun : DetectionResults :=
  longMsgRun.Warn "key.pem" "filesize" longWarnMsg [] Severity.high

/-- The ledger of `longBothRun`. -/
def longBothLedger : ResultsDetails :=
  ⟨"key.pem", [⟨"filecontent", longMsg, [], Severity.low⟩],
    [⟨"filesize", longWarnMsg, [], Severity.high⟩], []⟩

/-- The table rows rendered for the warning of `longBothRun`: 75
characters, a line break, 72 more characters, then the ellipsis. -/
def longWarnRows : List (List String) :=
  [["key.pem",
    String.mk (List.replicate 75 'b' ++ '\n' :: (List.replicate 72 'b' ++ "...".data)),
    "high"]]

/-- The end-to-end scenario of the spec: one failure recorded for
`a.pem` and one ignore recorded for `b.txt`. -/
def scenarioRun : DetectionResults :=
  (NewDetectionResults.Fail "a.pem" "filecontent" "secret key" ["commit1"] Severity.low).Ignore
    "b.txt" "filesize"

/-- A run holding a single warning, used to exercise `ReportWarnings`. -/
def warnRun : DetectionResults :=
  NewDetectionResults.Warn "w.txt" "filecontent" "possible secret" [] Severity.low

/-- A small concrete run with one ledger, used as a query witness. -/
def oneLedgerRun : DetectionResults :=
  ⟨⟨⟨0, 0, 0, 0, 0⟩⟩, [⟨"a", [⟨"filecontent", "m", [], Severity.low⟩], [], []⟩]⟩

/-- Helper: `find?` commutes with a `map` that preserves the tested
predicate. -/
theorem find?_map_eq {α : Type} (l : List α) (f : α → α) (q : α → Bool)
    (hf : ∀ a, q (f a) = q a) :
    (l.map f).find? q = (l.find? q).map f := by
  induction l with
  | nil => rfl
  | cons a t ih =>
      simp only [List.map_cons]
      cases hqa : q a with
      | true =>
          rw [List.find?_cons_of_pos _ (by rw [hf, hqa]),
            List.find?_cons_of_pos _ hqa]
          rfl
      | false =>
          rw [List.find?_cons_of_neg _ (by rw [hf, hqa]; exact Bool.false_ne_true),
            List.find?_cons_of_neg _ (by rw [hqa]; exact Bool.false_ne_true), ih]

/-- Helper: on a list with pairwise-distinct filenames, `find?` locates
exactly the member whose filename is the searched one. -/
theorem find?_filename_unique {l : List ResultsDetails} {p : String} {rd : ResultsDetails}
    (hpw : l.Pairwise fun a b => a.Filename ≠ b.Filename)
    (hrd : rd ∈ l) (hname : rd.Filename = p) :
    l.find? (fun x => x.Filename == p) = some rd := by
  induction l with
  | nil => cases hrd
  | cons a t ih =>
      rcases List.mem_cons.mp hrd with rfl | hmem
      · exact List.find?_cons_of_pos _ (by simp [hname])
      · have hne : a.Filename ≠ p := by
          have h1 := (List.pairwise_cons.mp hpw).1 rd hmem
          rw [hname] at h1
          exact h1
        rw [List.find?_cons_of_neg _ (by simp [hne])]
        exact ih (List.pairwise_cons.mp hpw).2 hmem

/-- Claim C7: for a path with no ledger, `GetFailures` returns the empty
list (and, being a total function, never fails); for a path whose ledger
exists (paths being pairwise distinct), it returns that ledger's failure
list. -/
theorem getFailures_total_and_exact : ∀ (r : DetectionResults) (p : String),
    ((∀ rd ∈ r.Results, rd.Filename ≠ p) → r.GetFailures p = []) ∧
    ((r.Results.Pairwise fun a b => a.Filename ≠ b.Filename) →
      ∀ rd ∈ r.Results, rd.Filename = p → r.GetFailures p = rd.FailureList) := by
  intro r p
  constructor
  · intro h
    have hn : r.getResultDetailsForFilePath p = none := by
      apply List.find?_eq_none.mpr
      intro rd hrd
      simp [h rd hrd]
    simp [DetectionResults.GetFailures, hn]
  · intro hpw rd hrd hname
    have hf : r.getResultDetailsForFilePath p = some rd :=
      find?_filename_unique hpw hrd hname
    simp [DetectionResults.GetFailures, hf]

/-- Witness for C7 at the concrete one-ledger run: an unknown path gives
the empty list, and the ledger's path gives its failure list. -/
theorem getFailures_total_and_exact_witness :
    oneLedgerRun.GetFailures "zz" = [] ∧
    oneLedgerRun.GetFailures "a" = [⟨"filecontent", "m", [], Severity.low⟩] :=
  ⟨(getFailures_total_and_exact oneLedgerRun "zz").1 (by decide),
   (getFailures_total_and_exact oneLedgerRun "a").2 (by decide)
     ⟨"a", [⟨"filecontent", "m", [], Severity.low⟩], [], []⟩ (by decide) rfl⟩

/-- Claim C9: for a path with no ledger, the Go `ReportFileFailures` and
`ReportFileWarnings` dereference a nil pointer and panic (modelled by
`none`), while `GetFailures` guards the same lookup and returns the
empty list. -/
theorem reportFile_panics_on_unknown_path : ∀ (r : DetectionResults) (p : String),
    r.getResultDetailsForFilePath p = none →
    r.ReportFileFailures p = none ∧ r.ReportFileWarnings p = none ∧
      r.GetFailures p = [] := by
  intro r p h
  simp [DetectionResults.ReportFileFailures, DetectionResults.ReportFileWarnings,
    DetectionResults.GetFailures, h]

/-- Witness for C9 at the fresh run state and an arbitrary path. -/
theorem reportFile_panics_on_unknown_path_witness :
    NewDetectionResults.getResultDetailsForFilePath "a.txt" = none ∧
    (NewDetectionResults.ReportFileFailures "a.txt" = none ∧
     NewDetectionResults.ReportFileWarnings "a.txt" = none ∧
     NewDetectionResults.GetFailures "a.txt" = []) :=
  ⟨rfl, reportFile_panics_on_unknown_path NewDetectionResults "a.txt" rfl⟩

/-- Claim C8: the reporting operations never modify the run state: when
they return, the state component is the input state and the stored
failure findings are unchanged (truncation happens on a copy). -/
theorem report_preserves_state : ∀ (r : DetectionResults) (p : String),
    (∀ st rows, r.ReportFileFailures p = some (st, rows) →
       st = r ∧ st.GetFailures p = r.GetFailures p) ∧
    (∀ st rows, r.ReportFileWarnings p = some (st, rows) →
       st = r ∧ st.GetFailures p = r.GetFailures p) := by
  intro r p
  constructor
  · intro st rows h
    cases hg : r.getResultDetailsForFilePath p with
    | none => simp [DetectionResults.ReportFileFailures, hg] at h
    | some rd =>
        simp only [DetectionResults.ReportFileFailures, hg] at h
        rw [Option.some.injEq, Prod.mk.injEq] at h
        obtain ⟨h1, _⟩ := h
        exact ⟨h1.symm, by rw [h1]⟩
  · intro st rows h
    cases hg : r.getResultDetailsForFilePath p with
    | none => simp [DetectionResults.ReportFileWarnings, hg] at h
    | some rd =>
        simp only [DetectionResults.ReportFileWarnings, hg] at h
        rw [Option.some.injEq, Prod.mk.injEq] at h
        obtain ⟨h1, _⟩ := h
        exact ⟨h1.symm, by rw [h1]⟩

set_option maxRecDepth 4000 in
/-- Witness for C8 at a run whose only failure message has 200
characters: the state after reporting is the input state, its stored
message untruncated. -/
theorem report_preserves_state_witness :
    longMsgRun.ReportFileFailures "key.pem" = some (longMsgRun, longMsgRows) ∧
    (longMsgRun = longMsgRun ∧
     longMsgRun.GetFailures "key.pem" = longMsgRun.GetFailures "key.pem") ∧
    (longMsgRun.GetFailures "key.pem").map (fun d => d.Message) = [longMsg] :=
  ⟨rfl, (report_preserves_state longMsgRun "key.pem").1 longMsgRun longMsgRows rfl, rfl⟩

/-- Claim C4: every finding the reporter renders — through
`ReportFileFailures` and through `ReportFileWarnings` alike — carries
the stored message unmodified when it has at most 150 characters, and
otherwise its first 75 characters, a line break, the characters 75..147
and an ellipsis. -/
theorem rendered_message_truncation : ∀ (r : DetectionResults) (p : String)
    (rd : ResultsDetails),
    r.getResultDetailsForFilePath p = some rd →
    (r.ReportFileFailures p = some (r, rd.FailureList.map (fun d =>
      [p,
       if d.Message.data.length ≤ 150 then d.Message
       else String.mk (d.Message.data.take 75 ++ '\n' ::
         ((d.Message.data.drop 75).take 72 ++ "...".data)),
       d.Severity.render])) ∧
     r.ReportFileWarnings p = some (r, rd.WarningList.map (fun d =>
      [p,
       if d.Message.data.length ≤ 150 then d.Message
       else String.mk (d.Message.data.take 75 ++ '\n' ::
         ((d.Message.data.drop 75).take 72 ++ "...".data)),
       d.Severity.render]))) := by
  intro r p rd h
  have htr : ∀ m : String, truncateForDisplay m =
      if m.data.length ≤ 150 then m
      else String.mk (m.data.take 75 ++ '\n' :: ((m.data.drop 75).take 72 ++ "...".data)) := by
    intro m
    unfold truncateForDisplay
    by_cases hlen : m.data.length > 150
    · rw [if_pos hlen, if_neg (by omega)]
    · rw [if_neg hlen, if_pos (by omega)]
  constructor
  · simp only [DetectionResults.ReportFileFailures, h]
    simp [htr]
  · simp only [DetectionResults.ReportFileWarnings, h]
    simp [htr]

set_option maxRecDepth 4000 in
/-- Witness for C4 at a ledger with one failure and one warning, both
200 characters long: each rendered row holds 75 characters, a line
break, 72 characters and the ellipsis. -/
theorem rendered_message_truncation_witness :
    longBothRun.getResultDetailsForFilePath "key.pem" = some longBothLedger ∧
    (longBothRun.ReportFileFailures "key.pem" =
        some (longBothRun, longBothLedger.FailureList.map (fun d =>
          [("key.pem" : String),
           if d.Message.data.length ≤ 150 then d.Message
           else String.mk (d.Message.data.take 75 ++ '\n' ::
             ((d.Message.data.drop 75).take 72 ++ "...".data)),
           d.Severity.render])) ∧
     longBothRun.ReportFileWarnings "key.pem" =
        some (longBothRun, longBothLedger.WarningList.map (fun d =>
          [("key.pem" : String),
           if d.Message.data.length ≤ 150 then d.Message
           else String.mk (d.Message.data.take 75 ++ '\n' ::
             ((d.Message.data.drop 75).take 72 ++ "...".data)),
           d.Severity.render]))) ∧
    longBothLedger.FailureList.map (fun d =>
      [("key.pem" : String),
       if d.Message.data.length ≤ 150 then d.Message
       else String.mk (d.Message.data.take 75 ++ '\n' ::
         ((d.Message.data.drop 75).take 72 ++ "...".data)),
       d.Severity.render]) = longMsgRows ∧
    longBothLedger.WarningList.map (fun d =>
      [("key.pem" : String),
       if d.Message.data.length ≤ 150 then d.Message
       else String.mk (d.Message.data.take 75 ++ '\n' ::
         ((d.Message.data.drop 75).take 72 ++ "...".data)),
       d.Severity.render]) = longWarnRows :=
  ⟨rfl, rendered_message_truncation longBothRun "key.pem" longBothLedger rfl, rfl, rfl⟩


/-- Claim C10: `Report` always returns the empty string (its banner,
rows and suggestions are side effects), while `ReportWarnings` returns a
nonempty string exactly when the warning counter is nonzero, and that
string is only the review hint. -/
theorem report_return_values :
    (∀ (r : DetectionResults) (hash : String → String) (ctx : PromptContext)
       (out : ReportOutcome), r.Report hash ctx = some out → out.returned = "") ∧
    (∀ (r : DetectionResults) (out : ReportOutcome), r.ReportWarnings = some out →
       ((out.returned ≠ "") ↔ r.Summary.Types.Warnings > 0) ∧
       (r.Summary.Types.Warnings > 0 → out.returned = reviewHint)) := by
  constructor
  · intro r hash ctx out h
    unfold DetectionResults.Report at h
    rcases Option.bind_eq_some.mp h with ⟨collected, _, hk⟩
    split at hk <;> (rw [Option.some.injEq] at hk; subst hk; rfl)
  · intro r out h
    unfold DetectionResults.ReportWarnings at h
    rcases Option.bind_eq_some.mp h with ⟨collected, _, hk⟩
    split at hk
    · rename_i hw
      rw [Option.some.injEq] at hk
      subst hk
      exact ⟨⟨fun _ => hw, fun _ => by show reviewHint ≠ ""; decide⟩, fun _ => rfl⟩
    · rename_i hw
      rw [Option.some.injEq] at hk
      subst hk
      exact ⟨⟨fun hne => absurd rfl hne, fun hw' => absurd hw' hw⟩,
        fun hw' => absurd hw' hw⟩

/-- Witness for C10: a run with one warning returns exactly the review
hint from `ReportWarnings`, and the end-to-end scenario's `Report`
returns the empty string. -/
theorem report_return_values_witness :
    warnRun.ReportWarnings =
      some ⟨reviewHint, [["w.txt", "possible secret", "low"]], true, []⟩ ∧
    scenarioRun.Report (fun _ => "checksum") ⟨false⟩ =
      some ⟨"", [["a.pem", "secret key", "low"]], true,
        [⟨"a.pem", "checksum", []⟩, ⟨"b.txt", "checksum", []⟩]⟩ ∧
    (⟨"", [["a.pem", "secret key", "low"]], true,
        [⟨"a.pem", "checksum", []⟩, ⟨"b.txt", "checksum", []⟩]⟩ : ReportOutcome).returned = "" ∧
    ((⟨reviewHint, [["w.txt", "possible secret", "low"]], true, []⟩ : ReportOutcome).returned ≠ ""
       ↔ warnRun.Summary.Types.Warnings > 0) :=
  ⟨rfl, rfl,
   report_return_values.1 scenarioRun (fun _ => "checksum") ⟨false⟩ _ rfl,
   (report_return_values.2 warnRun _ rfl).1⟩

/-- Claim C2 counterexample: in the end-to-end scenario the suggestion
workflow builds candidate entries for both `a.pem` and `b.txt` (files
with failures or ignores), not exactly one candidate for `a.pem` only. -/
theorem scenario_two_candidates_counterexample :
    (scenarioRun.Report (fun _ => "checksum") ⟨false⟩).map
        (fun out => out.suggestions.map (fun e => e.filePath)) = some ["a.pem", "b.txt"] ∧
    (some ["a.pem", "b.txt"] : Option (List String)) ≠ some ["a.pem"] :=
  ⟨rfl, by decide⟩

/-- Claim C2 (amended): in the end-to-end scenario, `Successful` is
false, `HasIgnores` is true, the failure table has a row for `a.pem`,
and the suggestion workflow produces exactly two candidate entries, for
`a.pem` and for `b.txt` (ignore-only files are included). -/
theorem scenario_end_to_end :
    scenarioRun.Successful = false ∧
    scenarioRun.HasIgnores = true ∧
    ∀ (hash : String → String) (ctx : PromptContext),
      ∃ out, scenarioRun.Report hash ctx = some out ∧
        ["a.pem", "secret key", "low"] ∈ out.rows ∧
        out.suggestions.map (fun e => e.filePath) = ["a.pem", "b.txt"] := by
  refine ⟨rfl, rfl, fun hash ctx => ⟨⟨"", [["a.pem", "secret key", "low"]], true,
    [⟨"a.pem", hash "a.pem", []⟩, ⟨"b.txt", hash "b.txt", []⟩]⟩, rfl, ?_, rfl⟩⟩
  exact List.mem_singleton.mpr rfl

/-- Helper: one `Fail` call on a single-ledger state whose only failure
already matches `(category, message)` appends the commits and keeps the
stored message and severity. -/
theorem fail_step (S : ResultsSummary) (p c m : String) (A : List String)
    (sv : Severity) (cs : List String) (sv' : Severity) :
    (DetectionResults.mk S [⟨p, [⟨c, m, A, sv⟩], [], []⟩]).Fail p c m cs sv' =
      ⟨updateResultsSummary S c, [⟨p, [⟨c, m, A ++ cs, sv⟩], [], []⟩]⟩ := by
  simp [DetectionResults.Fail, mergeFinding, detMatch]

/-- Helper: the first `Fail` call on the fresh state creates the single
ledger with the single finding. -/
theorem fail_fresh (p c m : String) (cs : List String) (sv : Severity) :
    NewDetectionResults.Fail p c m cs sv =
      ⟨updateResultsSummary ⟨⟨0, 0, 0, 0, 0⟩⟩ c, [⟨p, [⟨c, m, cs, sv⟩], [], []⟩]⟩ := rfl

/-- Helper: repeated `Fail` calls with one `(path, category, message)`
on a single-ledger state concatenate all commits in call order and touch
nothing else of the ledger. -/
theorem failCalls_single (p c m : String) (calls : List (List String × Severity)) :
    ∀ (S : ResultsSummary) (A : List String) (sv : Severity),
    (failCalls ⟨S, [⟨p, [⟨c, m, A, sv⟩], [], []⟩]⟩ p c m calls).Results =
      [⟨p, [⟨c, m, A ++ concatAll (calls.map Prod.fst), sv⟩], [], []⟩] := by
  induction calls with
  | nil => intro S A sv; simp [failCalls, concatAll]
  | cons hd tl ih =>
      intro S A sv
      have hstep : failCalls ⟨S, [⟨p, [⟨c, m, A, sv⟩], [], []⟩]⟩ p c m (hd :: tl) =
          failCalls ((⟨S, [⟨p, [⟨c, m, A, sv⟩], [], []⟩]⟩ : DetectionResults).Fail
            p c m hd.1 hd.2) p c m tl := rfl
      rw [hstep, fail_step, ih]
      simp [concatAll, List.append_assoc]

/-- Claim C1: any nonempty sequence of `Fail` calls with one fixed
`(path, category, message)` leaves exactly one finding for that category
and message, whose commits are the concatenation of all commits
arguments in call order and whose message and severity are those of the
first call. -/
theorem fail_merges_repeated_findings (p c m : String)
    (hd : List String × Severity) (tl : List (List String × Severity)) :
    (failCalls NewDetectionResults p c m (hd :: tl)).GetFailures p =
      [⟨c, m, concatAll ((hd :: tl).map Prod.fst), hd.2⟩] := by
  have h0 : failCalls NewDetectionResults p c m (hd :: tl) =
      failCalls (NewDetectionResults.Fail p c m hd.1 hd.2) p c m tl := rfl
  rw [h0, fail_fresh]
  have h2 := failCalls_single p c m tl (updateResultsSummary ⟨⟨0, 0, 0, 0, 0⟩⟩ c) hd.1 hd.2
  unfold DetectionResults.GetFailures DetectionResults.getResultDetailsForFilePath
  rw [h2, List.find?_cons_of_pos _ (by simp)]
  simp [concatAll]

/-- Helper: `Fail` changes `HasFailures` exactly by whether the category
is one of the three reserved strings. -/
theorem hasFailures_fail_iff (r : DetectionResults) (p c m : String)
    (cs : List String) (sv : Severity) :
    ((r.Fail p c m cs sv).HasFailures = true ↔
      (r.HasFailures = true ∨ c ∈ (["filecontent", "filesize", "filename"] : List String))) := by
  have hs : (r.Fail p c m cs sv).Summary = updateResultsSummary r.Summary c := rfl
  unfold DetectionResults.HasFailures
  rw [hs]
  unfold updateResultsSummary
  split <;> simp_all

/-- Helper: over a whole `Fail` sequence, `HasFailures` is the initial
value joined with whether some call used a reserved category. -/
theorem runFails_hasFailures (calls : List FailCall) :
    ∀ r : DetectionResults, ((runFails r calls).HasFailures = true ↔
      (r.HasFailures = true ∨
        ∃ k ∈ calls, k.category ∈ (["filecontent", "filesize", "filename"] : List String))) := by
  induction calls with
  | nil => intro r; simp [runFails]
  | cons k ks ih =>
      intro r
      have hstep : runFails r (k :: ks) =
          runFails (r.Fail k.path k.category k.message k.commits k.sv) ks := rfl
      rw [hstep, ih, hasFailures_fail_iff, or_assoc]
      constructor
      · rintro (h | h | h)
        · exact Or.inl h
        · exact Or.inr ⟨k, List.mem_cons_self k ks, h⟩
        · obtain ⟨k', hk', hc⟩ := h
          exact Or.inr ⟨k', List.mem_cons_of_mem k hk', hc⟩
      · rintro (h | ⟨k', hk', hc⟩)
        · exact Or.inl h
        · rcases List.mem_cons.mp hk' with rfl | hk'
          · exact Or.inr (Or.inl hc)
          · exact Or.inr (Or.inr ⟨k', hk', hc⟩)

/-- Helper: looking up `p` after an update that rewrites every matching
ledger through `g` (filename-preserving) and appends `new` (with
filename `p`) exactly when no ledger matched. -/
theorem getRD_mapAppend (l : List ResultsDetails) (p : String)
    (g : ResultsDetails → ResultsDetails) (hg : ∀ a, (g a).Filename = a.Filename)
    (new : ResultsDetails) (hnew : new.Filename = p) :
    ((if l.any (fun rd => rd.Filename == p) then
        l.map (fun rd => if rd.Filename == p then g rd else rd)
      else
        l.map (fun rd => if rd.Filename == p then g rd else rd) ++ [new]).find?
          (fun rd => rd.Filename == p)) =
      match l.find? (fun rd => rd.Filename == p) with
      | some rd => some (g rd)
      | none => some new := by
  have hf : ∀ a : ResultsDetails,
      (((if a.Filename == p then g a else a)).Filename == p) = (a.Filename == p) := by
    intro a
    split
    · rw [hg]
    · rfl
  by_cases hany : (l.any fun rd => rd.Filename == p) = true
  · rw [if_pos hany, find?_map_eq _ _ _ hf]
    cases hfind : l.find? (fun rd => rd.Filename == p) with
    | none =>
        obtain ⟨rd, hrd, hq⟩ := List.any_eq_true.mp hany
        exact absurd hq (List.find?_eq_none.mp hfind rd hrd)
    | some rd =>
        have hq := List.find?_some hfind
        simp only [Option.map_some']
        rw [if_pos hq]
  · rw [if_neg hany, List.find?_append, find?_map_eq _ _ _ hf]
    have hnone : l.find? (fun rd => rd.Filename == p) = none :=
      List.find?_eq_none.mpr
        (fun rd hrd hq => hany (List.any_eq_true.mpr ⟨rd, hrd, hq⟩))
    rw [hnone]
    have hnewfind : List.find? (fun rd => rd.Filename == p) [new] = some new :=
      List.find?_cons_of_pos _ (by simp [hnew])
    rw [hnewfind]
    rfl

/-- Helper: the ledger seen at `p` after a `Fail` call: the old ledger
with the merged failure list, or a fresh one-failure ledger. -/
theorem getRD_fail (r : DetectionResults) (p c m : String)
    (cs : List String) (sv : Severity) :
    (r.Fail p c m cs sv).getResultDetailsForFilePath p =
      match r.getResultDetailsForFilePath p with
      | some rd => some { rd with FailureList := mergeFinding rd.FailureList c m cs sv }
      | none => some ⟨p, [⟨c, m, cs, sv⟩], [], []⟩ :=
  getRD_mapAppend r.Results p
    (fun rd => { rd with FailureList := mergeFinding rd.FailureList c m cs sv })
    (fun _ => rfl) ⟨p, [⟨c, m, cs, sv⟩], [], []⟩ rfl

/-- Helper: the ledger seen at `p` after an `Ignore` call. -/
theorem getRD_ignore (r : DetectionResults) (p c : String) :
    (r.Ignore p c).getResultDetailsForFilePath p =
      match r.getResultDetailsForFilePath p with
      | some rd => some { rd with IgnoreList := ignoreUpdate rd.IgnoreList c }
      | none => some ⟨p, [], [], [⟨c, "", [], Severity.low⟩]⟩ :=
  getRD_mapAppend r.Results p
    (fun rd => { rd with IgnoreList := ignoreUpdate rd.IgnoreList c })
    (fun _ => rfl) ⟨p, [], [], [⟨c, "", [], Severity.low⟩]⟩ rfl

/-- Helper: after the merge loop, some entry with the supplied category
and message is in the list. -/
theorem mergeFinding_mem (l : List Details) (c m : String)
    (cs : List String) (sv : Severity) :
    ∃ d ∈ mergeFinding l c m cs sv, d.Category = c ∧ d.Message = m := by
  unfold mergeFinding
  split
  · rename_i hany
    obtain ⟨d0, hd0, hmatch⟩ := List.any_eq_true.mp hany
    have hcm : d0.Category = c ∧ d0.Message = m := by
      have h1 := hmatch
      simp [detMatch] at h1
      exact h1
    refine ⟨if detMatch c m d0 then { d0 with Commits := d0.Commits ++ cs } else d0,
      List.mem_map_of_mem _ hd0, ?_⟩
    rw [if_pos hmatch]
    exact ⟨hcm.1, hcm.2⟩
  · exact ⟨⟨c, m, cs, sv⟩, by simp, rfl, rfl⟩

/-- Helper: every `Fail` call stores a finding with its category and
message in the ledger of its path. -/
theorem getFailures_fail_mem (r : DetectionResults) (p c m : String)
    (cs : List String) (sv : Severity) :
    ∃ d ∈ (r.Fail p c m cs sv).GetFailures p, d.Category = c ∧ d.Message = m := by
  unfold DetectionResults.GetFailures
  rw [getRD_fail]
  cases hrd : r.getResultDetailsForFilePath p with
  | none => exact ⟨⟨c, m, cs, sv⟩, by simp, rfl, rfl⟩
  | some rd => exact mergeFinding_mem rd.FailureList c m cs sv

/-- Claim C3: `HasFailures` is true iff some `Fail` call used one of the
three reserved categories; a `Fail` call with any other category leaves
`HasFailures` unchanged, yet its finding is still stored in the ledger's
failure list. -/
theorem hasFailures_iff_counted_category :
    (∀ calls : List FailCall,
       ((runFails NewDetectionResults calls).HasFailures = true ↔
         ∃ k ∈ calls,
           k.category ∈ (["filecontent", "filesize", "filename"] : List String))) ∧
    (∀ (r : DetectionResults) (p c m : String) (cs : List String) (sv : Severity),
       ((r.Fail p c m cs sv).HasFailures = true ↔
         (r.HasFailures = true ∨
           c ∈ (["filecontent", "filesize", "filename"] : List String))) ∧
       ∃ d ∈ (r.Fail p c m cs sv).GetFailures p, d.Category = c ∧ d.Message = m) := by
  constructor
  · intro calls
    rw [runFails_hasFailures]
    simp [DetectionResults.HasFailures, NewDetectionResults]
  · intro r p c m cs sv
    exact ⟨hasFailures_fail_iff r p c m cs sv, getFailures_fail_mem r p c m cs sv⟩

/-- Helper: the merge loop preserves pairwise distinctness of
`(category, message)`. -/
theorem mergeFinding_pairwise {l : List Details} {c m : String}
    {cs : List String} {sv : Severity}
    (h : l.Pairwise fun a b => ¬(a.Category = b.Category ∧ a.Message = b.Message)) :
    (mergeFinding l c m cs sv).Pairwise
      fun a b => ¬(a.Category = b.Category ∧ a.Message = b.Message) := by
  have hcat : ∀ d : Details,
      (if detMatch c m d then { d with Commits := d.Commits ++ cs } else d).Category
        = d.Category := by
    intro d; split <;> rfl
  have hmsg : ∀ d : Details,
      (if detMatch c m d then { d with Commits := d.Commits ++ cs } else d).Message
        = d.Message := by
    intro d; split <;> rfl
  unfold mergeFinding
  split
  · rw [List.pairwise_map]
    refine h.imp ?_
    intro a b hab hcontra
    rw [hcat, hcat, hmsg, hmsg] at hcontra
    exact hab hcontra
  · rename_i hany
    rw [List.pairwise_append]
    refine ⟨h, List.pairwise_singleton _ _, ?_⟩
    intro a ha b hb
    rw [List.mem_singleton] at hb
    subst hb
    intro hcontra
    exact hany (List.any_eq_true.mpr
      ⟨a, ha, by simp [detMatch, hcontra.1, hcontra.2]⟩)

/-- Helper: the ignore loop preserves pairwise distinctness of
categories. -/
theorem ignoreUpdate_pairwise {l : List Details} {c : String}
    (h : l.Pairwise fun a b => a.Category ≠ b.Category) :
    (ignoreUpdate l c).Pairwise fun a b => a.Category ≠ b.Category := by
  unfold ignoreUpdate
  split
  · exact h
  · rename_i hany
    rw [List.pairwise_append]
    refine ⟨h, List.pairwise_singleton _ _, ?_⟩
    intro a ha b hb
    rw [List.mem_singleton] at hb
    subst hb
    intro hcontra
    exact hany (List.any_eq_true.mpr ⟨a, ha, by simp [hcontra]⟩)

/-- Helper: the ignore loop only ever stores entries with empty message
and `Low` severity. -/
theorem ignoreUpdate_entries {l : List Details} {c : String}
    (h : ∀ d ∈ l, d.Message = "" ∧ d.Severity = Severity.low) :
    ∀ d ∈ ignoreUpdate l c, d.Message = "" ∧ d.Severity = Severity.low := by
  unfold ignoreUpdate
  split
  · exact h
  · intro d hd
    rcases List.mem_append.mp hd with hd | hd
    · exact h d hd
    · rw [List.mem_singleton] at hd
      subst hd
      exact ⟨rfl, rfl⟩

/-- Helper: `Fail` preserves the well-formedness invariant. -/
theorem inv_fail {r : DetectionResults} {p c m : String} {cs : List String}
    {sv : Severity} (h : Inv r) : Inv (r.Fail p c m cs sv) := by
  unfold Inv at h ⊢
  obtain ⟨hnames, hleds⟩ := h
  have hf : ∀ a : ResultsDetails,
      ((if a.Filename == p then
          { a with FailureList := mergeFinding a.FailureList c m cs sv }
        else a)).Filename = a.Filename := by
    intro a; split <;> rfl
  have hres : (r.Fail p c m cs sv).Results =
      (if (r.Results.any fun rd => rd.Filename == p) = true then
        r.Results.map (fun rd =>
          if rd.Filename == p then
            { rd with FailureList := mergeFinding rd.FailureList c m cs sv }
          else rd)
      else
        r.Results.map (fun rd =>
          if rd.Filename == p then
            { rd with FailureList := mergeFinding rd.FailureList c m cs sv }
          else rd) ++ [⟨p, [⟨c, m, cs, sv⟩], [], []⟩]) := rfl
  have hmappw : (r.Results.map (fun rd =>
      if rd.Filename == p then
        { rd with FailureList := mergeFinding rd.FailureList c m cs sv }
      else rd)).Pairwise (fun a b => a.Filename ≠ b.Filename) := by
    rw [List.pairwise_map]
    refine hnames.imp ?_
    intro a b hab
    rw [hf a, hf b]
    exact hab
  have hmapinv : ∀ rd' ∈ r.Results.map (fun rd =>
      if rd.Filename == p then
        { rd with FailureList := mergeFinding rd.FailureList c m cs sv }
      else rd),
      (rd'.FailureList.Pairwise fun a b =>
        ¬(a.Category = b.Category ∧ a.Message = b.Message)) ∧
      (rd'.WarningList.Pairwise fun a b =>
        ¬(a.Category = b.Category ∧ a.Message = b.Message)) ∧
      (rd'.IgnoreList.Pairwise fun a b => a.Category ≠ b.Category) ∧
      ∀ d ∈ rd'.IgnoreList, d.Message = "" ∧ d.Severity = Severity.low := by
    intro rd' h'
    obtain ⟨rd, hrd, rfl⟩ := List.mem_map.mp h'
    obtain ⟨h1, h2, h3, h4⟩ := hleds rd hrd
    by_cases hcase : (rd.Filename == p) = true
    · rw [if_pos hcase]
      exact ⟨mergeFinding_pairwise h1, h2, h3, h4⟩
    · rw [if_neg hcase]
      exact ⟨h1, h2, h3, h4⟩
  constructor
  · rw [hres]
    split
    · exact hmappw
    · rename_i hany
      rw [List.pairwise_append]
      refine ⟨hmappw, List.pairwise_singleton _ _, ?_⟩
      intro a ha b hb
      rw [List.mem_singleton] at hb
      subst hb
      obtain ⟨a0, ha0, rfl⟩ := List.mem_map.mp ha
      rw [hf a0]
      intro heq
      exact hany (List.any_eq_true.mpr ⟨a0, ha0, by simp [heq]⟩)
  · intro rd' h'
    rw [hres] at h'
    split at h'
    · exact hmapinv rd' h'
    · rcases List.mem_append.mp h' with hmem | hmem
      · exact hmapinv rd' hmem
      · rw [List.mem_singleton] at hmem
        subst hmem
        refine ⟨List.pairwise_singleton _ _, List.Pairwise.nil, List.Pairwise.nil, ?_⟩
        intro d hd
        exact absurd hd (List.not_mem_nil d)

/-- Helper: `Warn` preserves the well-formedness invariant. -/
theorem inv_warn {r : DetectionResults} {p c m : String} {cs : List String}
    {sv : Severity} (h : Inv r) : Inv (r.Warn p c m cs sv) := by
  unfold Inv at h ⊢
  obtain ⟨hnames, hleds⟩ := h
  have hf : ∀ a : ResultsDetails,
      ((if a.Filename == p then
          { a with WarningList := mergeFinding a.WarningList c m cs sv }
        else a)).Filename = a.Filename := by
    intro a; split <;> rfl
  have hres : (r.Warn p c m cs sv).Results =
      (if (r.Results.any fun rd => rd.Filename == p) = true then
        r.Results.map (fun rd =>
          if rd.Filename == p then
            { rd with WarningList := mergeFinding rd.WarningList c m cs sv }
          else rd)
      else
        r.Results.map (fun rd =>
          if rd.Filename == p then
            { rd with WarningList := mergeFinding rd.WarningList c m cs sv }
          else rd) ++ [⟨p, [], [⟨c, m, cs, sv⟩], []⟩]) := rfl
  have hmappw : (r.Results.map (fun rd =>
      if rd.Filename == p then
        { rd with WarningList := mergeFinding rd.WarningList c m cs sv }
      else rd)).Pairwise (fun a b => a.Filename ≠ b.Filename) := by
    rw [List.pairwise_map]
    refine hnames.imp ?_
    intro a b hab
    rw [hf a, hf b]
    exact hab
  have hmapinv : ∀ rd' ∈ r.Results.map (fun rd =>
      if rd.Filename == p then
        { rd with WarningList := mergeFinding rd.WarningList c m cs sv }
      else rd),
      (rd'.FailureList.Pairwise fun a b =>
        ¬(a.Category = b.Category ∧ a.Message = b.Message)) ∧
      (rd'.WarningList.Pairwise fun a b =>
        ¬(a.Category = b.Category ∧ a.Message = b.Message)) ∧
      (rd'.IgnoreList.Pairwise fun a b => a.Category ≠ b.Category) ∧
      ∀ d ∈ rd'.IgnoreList, d.Message = "" ∧ d.Severity = Severity.low := by
    intro rd' h'
    obtain ⟨rd, hrd, rfl⟩ := List.mem_map.mp h'
    obtain ⟨h1, h2, h3, h4⟩ := hleds rd hrd
    by_cases hcase : (rd.Filename == p) = true
    · rw [if_pos hcase]
      exact ⟨h1, mergeFinding_pairwise h2, h3, h4⟩
    · rw [if_neg hcase]
      exact ⟨h1, h2, h3, h4⟩
  constructor
  · rw [hres]
    split
    · exact hmappw
    · rename_i hany
      rw [List.pairwise_append]
      refine ⟨hmappw, List.pairwise_singleton _ _, ?_⟩
      intro a ha b hb
      rw [List.mem_singleton] at hb
      subst hb
      obtain ⟨a0, ha0, rfl⟩ := List.mem_map.mp ha
      rw [hf a0]
      intro heq
      exact hany (List.any_eq_true.mpr ⟨a0, ha0, by simp [heq]⟩)
  · intro rd' h'
    rw [hres] at h'
    split at h'
    · exact hmapinv rd' h'
    · rcases List.mem_append.mp h' with hmem | hmem
      · exact hmapinv rd' hmem
      · rw [List.mem_singleton] at hmem
        subst hmem
        refine ⟨List.Pairwise.nil, List.pairwise_singleton _ _, List.Pairwise.nil, ?_⟩
        intro d hd
        exact absurd hd (List.not_mem_nil d)

/-- Helper: `Ignore` preserves the well-formedness invariant. -/
theorem inv_ignore {r : DetectionResults} {p c : String} (h : Inv r) :
    Inv (r.Ignore p c) := by
  unfold Inv at h ⊢
  obtain ⟨hnames, hleds⟩ := h
  have hf : ∀ a : ResultsDetails,
      ((if a.Filename == p then
          { a with IgnoreList := ignoreUpdate a.IgnoreList c }
        else a)).Filename = a.Filename := by
    intro a; split <;> rfl
  have hres : (r.Ignore p c).Results =
      (if (r.Results.any fun rd => rd.Filename == p) = true then
        r.Results.map (fun rd =>
          if rd.Filename == p then
            { rd with IgnoreList := ignoreUpdate rd.IgnoreList c }
          else rd)
      else
        r.Results.map (fun rd =>
          if rd.Filename == p then
            { rd with IgnoreList := ignoreUpdate rd.IgnoreList c }
          else rd) ++ [⟨p, [], [], [⟨c, "", [], Severity.low⟩]⟩]) := rfl
  have hmappw : (r.Results.map (fun rd =>
      if rd.Filename == p then
        { rd with IgnoreList := ignoreUpdate rd.IgnoreList c }
      else rd)).Pairwise (fun a b => a.Filename ≠ b.Filename) := by
    rw [List.pairwise_map]
    refine hnames.imp ?_
    intro a b hab
    rw [hf a, hf b]
    exact hab
  have hmapinv : ∀ rd' ∈ r.Results.map (fun rd =>
      if rd.Filename == p then
        { rd with IgnoreList := ignoreUpdate rd.IgnoreList c }
      else rd),
      (rd'.FailureList.Pairwise fun a b =>
        ¬(a.Category = b.Category ∧ a.Message = b.Message)) ∧
      (rd'.WarningList.Pairwise fun a b =>
        ¬(a.Category = b.Category ∧ a.Message = b.Message)) ∧
      (rd'.IgnoreList.Pairwise fun a b => a.Category ≠ b.Category) ∧
      ∀ d ∈ rd'.IgnoreList, d.Message = "" ∧ d.Severity = Severity.low := by
    intro rd' h'
    obtain ⟨rd, hrd, rfl⟩ := List.mem_map.mp h'
    obtain ⟨h1, h2, h3, h4⟩ := hleds rd hrd
    by_cases hcase : (rd.Filename == p) = true
    · rw [if_pos hcase]
      exact ⟨h1, h2, ignoreUpdate_pairwise h3, ignoreUpdate_entries h4⟩
    · rw [if_neg hcase]
      exact ⟨h1, h2, h3, h4⟩
  constructor
  · rw [hres]
    split
    · exact hmappw
    · rename_i hany
      rw [List.pairwise_append]
      refine ⟨hmappw, List.pairwise_singleton _ _, ?_⟩
      intro a ha b hb
      rw [List.mem_singleton] at hb
      subst hb
      obtain ⟨a0, ha0, rfl⟩ := List.mem_map.mp ha
      rw [hf a0]
      intro heq
      exact hany (List.any_eq_true.mpr ⟨a0, ha0, by simp [heq]⟩)
  · intro rd' h'
    rw [hres] at h'
    split at h'
    · exact hmapinv rd' h'
    · rcases List.mem_append.mp h' with hmem | hmem
      · exact hmapinv rd' hmem
      · rw [List.mem_singleton] at hmem
        subst hmem
        refine ⟨List.Pairwise.nil, List.Pairwise.nil, List.pairwise_singleton _ _, ?_⟩
        intro d hd
        rw [List.mem_singleton] at hd
        subst hd
        exact ⟨rfl, rfl⟩

/-- Helper: the fresh state is well-formed. -/
theorem inv_new : Inv NewDetectionResults := by
  constructor
  · exact List.Pairwise.nil
  · intro rd h
    exact absurd h (List.not_mem_nil rd)

/-- Helper: every accumulation call preserves the invariant. -/
theorem inv_applyOp {r : DetectionResults} (op : Op) (h : Inv r) :
    Inv (applyOp r op) := by
  cases op with
  | fail p c m cs sv => exact inv_fail h
  | warn p c m cs sv => exact inv_warn h
  | ignore p c => exact inv_ignore h

/-- Helper: the invariant holds after any call sequence. -/
theorem inv_runOps (ops : List Op) : ∀ r, Inv r → Inv (runOps r ops) := by
  induction ops with
  | nil => intro r h; exact h
  | cons op ops ih =>
      intro r h
      exact ih _ (inv_applyOp op h)

/-- Claim C6: every call sequence from the fresh state keeps ledger
paths pairwise distinct, failure and warning entries pairwise distinct
on `(category, message)`, and ignore entries pairwise distinct on
category. -/
theorem accumulation_preserves_wellformedness : ∀ ops : List Op,
    ((runOps NewDetectionResults ops).Results.Pairwise
      fun a b => a.Filename ≠ b.Filename) ∧
    ∀ rd ∈ (runOps NewDetectionResults ops).Results,
      (rd.FailureList.Pairwise fun a b =>
        ¬(a.Category = b.Category ∧ a.Message = b.Message)) ∧
      (rd.WarningList.Pairwise fun a b =>
        ¬(a.Category = b.Category ∧ a.Message = b.Message)) ∧
      (rd.IgnoreList.Pairwise fun a b => a.Category ≠ b.Category) := by
  intro ops
  obtain ⟨h1, h2⟩ := inv_runOps ops NewDetectionResults inv_new
  exact ⟨h1, fun rd hrd =>
    ⟨(h2 rd hrd).1, (h2 rd hrd).2.1, (h2 rd hrd).2.2.1⟩⟩

/-- Helper: a list with pairwise-distinct categories holds at most one
entry of any category. -/
theorem countP_le_one_of_pairwise {l : List Details} (c : String)
    (h : l.Pairwise fun a b => a.Category ≠ b.Category) :
    l.countP (fun d => d.Category == c) ≤ 1 := by
  induction l with
  | nil => simp
  | cons a t ih =>
      rw [List.countP_cons]
      obtain ⟨ha, ht⟩ := List.pairwise_cons.mp h
      by_cases hac : (a.Category == c) = true
      · have ht0 : t.countP (fun d => d.Category == c) = 0 := by
          apply List.countP_eq_zero.mpr
          intro d hd hdc
          have hne := ha d hd
          have hace : a.Category = c := by simpa using hac
          have hdce : d.Category = c := by simpa using hdc
          exact hne (by rw [hace, hdce])
        rw [ht0, if_pos hac]
      · rw [if_neg hac]
        have := ih ht
        omega

/-- Helper: after two passes of the ignore loop on a well-formed list,
the list holds exactly one entry of the ignored category. -/
theorem countP_double_ignoreUpdate {l : List Details} {c : String}
    (h : l.Pairwise fun a b => a.Category ≠ b.Category) :
    ((ignoreUpdate (ignoreUpdate l c) c).countP fun d => d.Category == c) = 1 := by
  have hstep : ∀ l' : List Details, (l'.any fun d => d.Category == c) = true →
      ignoreUpdate l' c = l' := by
    intro l' h'
    unfold ignoreUpdate
    rw [if_pos h']
  by_cases hany : (l.any fun d => d.Category == c) = true
  · rw [hstep l hany, hstep l hany]
    have h1 : 0 < l.countP (fun d => d.Category == c) := by
      rw [List.countP_pos_iff]
      exact List.any_eq_true.mp hany
    have h2 := countP_le_one_of_pairwise c h
    omega
  · have happ : ignoreUpdate l c = l ++ [⟨c, "", [], Severity.low⟩] := by
      unfold ignoreUpdate
      rw [if_neg hany]
    rw [happ, hstep _ (List.any_eq_true.mpr
      ⟨⟨c, "", [], Severity.low⟩, by simp, by simp⟩)]
    rw [List.countP_append]
    have h0 : l.countP (fun d => d.Category == c) = 0 :=
      List.countP_eq_zero.mpr
        (fun d hd hdc => hany (List.any_eq_true.mpr ⟨d, hd, hdc⟩))
    rw [h0]
    simp [List.countP_cons]

/-- Claim C5: from any reachable run state, calling `Ignore` twice with
one path and category raises the ignore counter by exactly 2 while the
ledger holds exactly one ignore entry of that category, and every
stored ignore entry has an empty message and `Low` severity. -/
theorem double_ignore_counter_and_dedup : ∀ (ops : List Op) (p c : String),
    (((runOps NewDetectionResults ops).Ignore p c).Ignore p c).Summary.Types.Ignores =
      (runOps NewDetectionResults ops).Summary.Types.Ignores + 2 ∧
    (∃ rd, (((runOps NewDetectionResults ops).Ignore p c).Ignore p c).getResultDetailsForFilePath p
        = some rd ∧ (rd.IgnoreList.countP fun d => d.Category == c) = 1) ∧
    ∀ rd ∈ (((runOps NewDetectionResults ops).Ignore p c).Ignore p c).Results,
      ∀ d ∈ rd.IgnoreList, d.Message = "" ∧ d.Severity = Severity.low := by
  intro ops p c
  have hinv : Inv (runOps NewDetectionResults ops) :=
    inv_runOps ops NewDetectionResults inv_new
  set r := runOps NewDetectionResults ops with hr
  refine ⟨rfl, ?_, ?_⟩
  · cases hrd : r.getResultDetailsForFilePath p with
    | some rd =>
        have h1 : (r.Ignore p c).getResultDetailsForFilePath p =
            some { rd with IgnoreList := ignoreUpdate rd.IgnoreList c } := by
          rw [getRD_ignore, hrd]
        have h2 : ((r.Ignore p c).Ignore p c).getResultDetailsForFilePath p =
            some { rd with IgnoreList := ignoreUpdate (ignoreUpdate rd.IgnoreList c) c } := by
          rw [getRD_ignore, h1]
        have hpair : rd.IgnoreList.Pairwise (fun a b => a.Category ≠ b.Category) :=
          (hinv.2 rd (List.mem_of_find?_eq_some hrd)).2.2.1
        exact ⟨_, h2, countP_double_ignoreUpdate hpair⟩
    | none =>
        have h1 : (r.Ignore p c).getResultDetailsForFilePath p =
            some ⟨p, [], [], [⟨c, "", [], Severity.low⟩]⟩ := by
          rw [getRD_ignore, hrd]
        have h2 : ((r.Ignore p c).Ignore p c).getResultDetailsForFilePath p =
            some ⟨p, [], [], ignoreUpdate [⟨c, "", [], Severity.low⟩] c⟩ := by
          rw [getRD_ignore, h1]
        refine ⟨_, h2, ?_⟩
        simp [ignoreUpdate, List.countP_cons]
  · have hinv2 : Inv ((r.Ignore p c).Ignore p c) := inv_ignore (inv_ignore hinv)
    intro rd hrd d hd
    exact (hinv2.2 rd hrd).2.2.2 d hd

end Talisman
